import Mathlib

/-!
Shallow embedding of unixpickle/neuraltree (node.go).

Vectors (linalg.Vector / float64 slices) are modelled as `List ℝ`, with the
floating-point arithmetic read as exact real arithmetic.  The external
collaborators (neuralnet.Network, the autofunc computation graph, and the
serializer package) are modelled at their interface boundary, following the
code's use of them.  A Go panic is modelled by the `GoResult.panic`
constructor; a normal return by `GoResult.ret`.
-/

/-- An autofunc.Variable (a trainable parameter handle), identified abstractly. -/
abbrev Variable := Nat

/-- An autofunc.RVector: an assignment of r-vectors to variables.  The tree code
only threads this value through to the networks and child calls. -/
abbrev RVector := Variable → List ℝ

/-- The data of an autofunc.RResult: the output vector together with its
r-derivative vector (`Output()` and `ROutput()`). -/
abbrev RVec := List ℝ × List ℝ

/-- Model of the external neuralnet.Network collaborator, at the interface the
tree code uses: `Apply`, `ApplyR` and `Parameters`. -/
structure Network where
  apply : List ℝ → List ℝ
  applyR : RVector → RVec → RVec
  parameters : List Variable

/-- node.go: `type Node struct { Network neuralnet.Network; Children []*Node }`. -/
inductive Node : Type where
  | mk : Network → List Node → Node

/-- The `Network` field of a Node. -/
def Node.network : Node → Network
  | .mk net _ => net

/-- The `Children` field of a Node. -/
def Node.children : Node → List Node
  | .mk _ cs => cs

/-- A decoded element of a serialized slice, as produced by
`serializer.DeserializeSlice`: its dynamic type is `*Node`, `neuralnet.Network`,
or some other registered serializer type. -/
inductive SObj : Type where
  | node : Node → SObj
  | network : Network → SObj
  | other : SObj

/-- Model of a byte slice fed to `serializer.DeserializeSlice`: either a
well-formed encoding of a list of serializer objects, or bytes the external
serializer rejects. -/
inductive Encoded : Type where
  | slice : List SObj → Encoded
  | malformed : Encoded

/-- serializer.SerializeSlice: the external serializer encodes a list of
objects; its contract is that DeserializeSlice recovers exactly that list. -/
def SerializeSlice (l : List SObj) : Encoded := Encoded.slice l

/-- serializer.DeserializeSlice: recovers the encoded object list, or fails with
an error on malformed bytes. -/
def DeserializeSlice : Encoded → Except String (List SObj)
  | .slice l => Except.ok l
  | .malformed => Except.error ("malformed slice data")

/-- Outcome of running a Go function: a normal return value, or a panic. -/
inductive GoResult (α : Type) : Type where
  | ret : α → GoResult α
  | panic : String → GoResult α

/-- Sequencing of Go computations: a panic propagates. -/
def GoResult.bind {α β : Type} : GoResult α → (α → GoResult β) → GoResult β
  | .ret a, f => f a
  | .panic s, _ => .panic s

/-- Mapping over the return value of a Go computation; a panic propagates. -/
def GoResult.map {α β : Type} (f : α → β) : GoResult α → GoResult β
  | .ret a => .ret (f a)
  | .panic s => .panic s

/-- node.go `DeserializeNode`, traced faithfully:

    list, err := serializer.DeserializeSlice(d)
    if err != nil { return nil, err }
    else if len(list) == 0 { return nil, errors.New("invalid Node slice") }
    res := &Node{Children: make([]*Node, len(list)-1)}
    var ok bool
    res.Network = list[len(list)-1].(neuralnet.Network)   // single-value assertion: panics on wrong type
    if !ok { return nil, errors.New("invalid Node slice") }  // ok was never set: always taken
    ...

The single-value type assertion panics when the last element is not a
`neuralnet.Network`; when it succeeds, `ok` still holds its zero value `false`,
so the function returns the error before ever reaching the children loop. -/
def DeserializeNode (d : Encoded) : GoResult (Except String Node) :=
  match DeserializeSlice d with
  | .error e => .ret (.error e)
  | .ok list =>
    if list.length = 0 then
      .ret (.error ("invalid Node slice"))
    else
      match list.getLast? with
      | some (SObj.network _) => .ret (.error ("invalid Node slice"))
      | _ => .panic ("interface conversion: element is not a neuralnet.Network")

/-- node.go `Serialize`: the children (in order) followed by the node's own
network, passed to the external `SerializeSlice`. -/
def Node.Serialize : Node → Encoded
  | .mk net cs => SerializeSlice (cs.map SObj.node ++ [SObj.network net])

/-- linalg.Vector `MaxAbs`: the largest absolute value of any entry
(0 for the empty vector). -/
def maxAbs (v : List ℝ) : ℝ := v.foldl (fun m x => max m |x|) 0

/-- autofunc.AddScaler: add a scalar constant to every entry. -/
def addScaler (v : List ℝ) (c : ℝ) : List ℝ := v.map (fun x => x + c)

/-- autofunc.Add: elementwise sum of two equal-length vectors. -/
def addV (a b : List ℝ) : List ℝ := List.zipWith (fun x y => x + y) a b

/-- autofunc.Exp{}.Apply: elementwise exponential. -/
noncomputable def expV (v : List ℝ) : List ℝ := v.map Real.exp

/-- autofunc.Log{}.Apply: elementwise natural logarithm. -/
noncomputable def logV (v : List ℝ) : List ℝ := v.map Real.log

/-- autofunc.AddFirst: add the first entry of `w` to every entry of `v`. -/
def addFirst (v w : List ℝ) : List ℝ := v.map (fun x => x + w.headD 0)

/-- node.go `logExpSum`: computes log(e^v1 + e^v2) with a shared scalar shift

    maxVal := math.Max(v1.Output().MaxAbs(), v2.Output().MaxAbs())
    exp1 := Exp(AddScaler(v1, -maxVal)); exp2 := Exp(AddScaler(v2, -maxVal))
    return AddScaler(Log(Add(exp1, exp2)), maxVal)
-/
noncomputable def logExpSum (v1 v2 : List ℝ) : List ℝ :=
  let maxVal := max (maxAbs v1) (maxAbs v2)
  addScaler (logV (addV (expV (addScaler v1 (-maxVal))) (expV (addScaler v2 (-maxVal))))) maxVal

/-- autofunc.AddScalerR: the value entries are shifted, the r-derivative is unchanged. -/
def addScalerR (v : RVec) (c : ℝ) : RVec := (addScaler v.1 c, v.2)

/-- autofunc.Exp{}.ApplyR: value exp(x), r-derivative exp(x) * dx. -/
noncomputable def expR (v : RVec) : RVec :=
  (expV v.1, List.zipWith (fun x dx => Real.exp x * dx) v.1 v.2)

/-- autofunc.AddR: elementwise sum of values and of r-derivatives. -/
def addR (a b : RVec) : RVec := (addV a.1 b.1, addV a.2 b.2)

/-- autofunc.Log{}.ApplyR: value log(x), r-derivative dx / x. -/
noncomputable def logR (v : RVec) : RVec :=
  (logV v.1, List.zipWith (fun x dx => dx / x) v.1 v.2)

/-- autofunc.AddFirstR: AddFirst on the values and on the r-derivatives. -/
def addFirstR (v w : RVec) : RVec := (addFirst v.1 w.1, addFirst v.2 w.2)

/-- node.go `logExpSumR`: the r-operator version of `logExpSum`; the scalar
shift is computed from the value components (`Output()`). -/
noncomputable def logExpSumR (v1 v2 : RVec) : RVec :=
  let maxVal := max (maxAbs v1.1) (maxAbs v2.1)
  addScalerR (logR (addR (expR (addScalerR v1 (-maxVal))) (expR (addScalerR v2 (-maxVal))))) maxVal

/-- The accumulation in `Apply`'s loop: `res` starts as the first weighted
vector and each later one is merged with `logExpSum`, left to right.  The loop
body runs at least once on every path that reaches it, so the `[]` case is
never taken by `Apply`. -/
noncomputable def foldLogExpSum : List (List ℝ) → List ℝ
  | [] => []
  | w :: ws => ws.foldl logExpSum w

/-- The body of the `Pool` closure in `Apply`: for each index i the weight is
`Slice(w, i, i+1) = [scores[i]]`, the weighted vector is
`AddFirst(childOut_i, [scores[i]])`, and the results are accumulated with
`logExpSum`.  The loop bound `len(w.Output())` equals `len(children)` on every
path that reaches it, which the zipWith reflects. -/
noncomputable def combineWeighted (scores : List ℝ) (outs : List (List ℝ)) : List ℝ :=
  foldLogExpSum (List.zipWith (fun s childOut => addFirst childOut [s]) scores outs)

/-- The r-operator accumulation of `ApplyR` (`PoolR` closure), with the weight
`SliceR(w, i, i+1)` carrying both the value and the r-derivative entry.
autofunc guarantees `ROutput()` has the same length as `Output()`, which the
zip over the two component lists reflects. -/
noncomputable def foldLogExpSumR : List RVec → RVec
  | [] => ([], [])
  | w :: ws => ws.foldl logExpSumR w

/-- The weighted accumulation of `ApplyR`; see `combineWeighted`. -/
noncomputable def combineWeightedR (dw : RVec) (outs : List RVec) : RVec :=
  foldLogExpSumR
    (List.zipWith (fun sr childOut => addFirstR childOut ([sr.1], [sr.2])) (dw.1.zip dw.2) outs)

mutual

/-- node.go `Apply`:

    decisionWeights := n.Network.Apply(input)
    if len(n.Children) == 0 { return decisionWeights }
    if len(decisionWeights.Output()) != len(n.Children) {
      panic("child node count must match network output size")
    }
    return Pool(decisionWeights, ...loop combining weighted children...)
-/
noncomputable def Node.Apply : Node → List ℝ → GoResult (List ℝ)
  | Node.mk net cs, input =>
    let scores := net.apply input
    if cs.length = 0 then
      GoResult.ret scores
    else if scores.length ≠ cs.length then
      GoResult.panic ("child node count must match network output size")
    else
      GoResult.map (combineWeighted scores) (applyChildren cs input)

/-- The recursive evaluations `n.Children[i].Apply(input)` of `Apply`'s loop,
in child index order; a panic in any child propagates. -/
noncomputable def applyChildren : List Node → List ℝ → GoResult (List (List ℝ))
  | [], _ => GoResult.ret []
  | c :: rest, input =>
    GoResult.bind (Node.Apply c input) (fun o =>
      GoResult.map (fun os => o :: os) (applyChildren rest input))

end

mutual

/-- node.go `ApplyR`: the r-operator version of `Apply`, same structure. -/
noncomputable def Node.ApplyR : Node → RVector → RVec → GoResult RVec
  | Node.mk net cs, rv, input =>
    let dw := net.applyR rv input
    if cs.length = 0 then
      GoResult.ret dw
    else if dw.1.length ≠ cs.length then
      GoResult.panic ("child node count must match network output size")
    else
      GoResult.map (combineWeightedR dw) (applyChildrenR cs rv input)

/-- The recursive evaluations `n.Children[i].ApplyR(rv, input)` of `ApplyR`. -/
noncomputable def applyChildrenR : List Node → RVector → RVec → GoResult (List RVec)
  | [], _, _ => GoResult.ret []
  | c :: rest, rv, input =>
    GoResult.bind (Node.ApplyR c rv input) (fun o =>
      GoResult.map (fun os => o :: os) (applyChildrenR rest rv input))

end

mutual

/-- node.go `Parameters`: the node's own network parameters, then each child's
`Parameters()` recursively, in child index order. -/
def Node.Parameters : Node → List Variable
  | .mk net cs => net.parameters ++ paramsList cs

/-- The appended children contributions of `Parameters`'s loop. -/
def paramsList : List Node → List Variable
  | [] => []
  | c :: rest => Node.Parameters c ++ paramsList rest

end

mutual

/-- The sum, over every node of the subtree, of that node's own network
parameter count. -/
def Node.subtreeParamCount : Node → Nat
  | .mk net cs => net.parameters.length + subtreeCountList cs

/-- Sum of `subtreeParamCount` over a list of nodes. -/
def subtreeCountList : List Node → Nat
  | [] => 0
  | c :: rest => Node.subtreeParamCount c + subtreeCountList rest

end

/-- The autofunc contract for a network's r-operator form: `ApplyR` computes the
same output vector as `Apply`, and its `ROutput()` has the same length as its
`Output()`. -/
def NetCoherent (net : Network) : Prop :=
  ∀ rv input, (net.applyR rv input).1 = net.apply input.1 ∧
    (net.applyR rv input).2.length = (net.applyR rv input).1.length

/-- Every network in the tree satisfies the autofunc contract `NetCoherent`. -/
inductive TreeCoherent : Node → Prop where
  | mk : ∀ (net : Network) (cs : List Node),
      NetCoherent net → (∀ c ∈ cs, TreeCoherent c) → TreeCoherent (Node.mk net cs)

/-- Every branch node's network output length equals its child count, on every
input (the structural invariant of §3 of the spec). -/
inductive WellFormed : Node → Prop where
  | leaf : ∀ net, WellFormed (Node.mk net [])
  | branch : ∀ (net : Network) (cs : List Node), cs ≠ [] →
      (∀ input, (net.apply input).length = cs.length) →
      (∀ c ∈ cs, WellFormed c) → WellFormed (Node.mk net cs)

/-- A valid tree for class count K: every leaf network outputs a length-K
log-probability vector whose exponentials sum to 1, and every branch network
outputs a length-`len(children)` log-probability vector whose exponentials sum
to 1. -/
inductive ValidTree (K : Nat) : Node → Prop where
  | leaf : ∀ net : Network,
      (∀ input : List ℝ, (net.apply input).length = K ∧
        ((net.apply input).map Real.exp).sum = 1) →
      ValidTree K (Node.mk net [])
  | branch : ∀ (net : Network) (cs : List Node), cs ≠ [] →
      (∀ input : List ℝ, (net.apply input).length = cs.length ∧
        ((net.apply input).map Real.exp).sum = 1) →
      (∀ c ∈ cs, ValidTree K c) → ValidTree K (Node.mk net cs)

/-- Structural induction for the nested inductive `Node`. -/
def Node.inductionOn {P : Node → Prop} :
    (n : Node) → (step : ∀ net cs, (∀ c ∈ cs, P c) → P (Node.mk net cs)) → P n
  | Node.mk net cs, step => step net cs (fun c hc => Node.inductionOn c step)
termination_by n _ => sizeOf n
decreasing_by
  simp only [Node.mk.sizeOf_spec]
  have := List.sizeOf_lt_of_mem hc
  omega

/-- A concrete leaf network: constant output [0] (so e^0 = 1 sums to 1). -/
def leafNet : Network :=
  { apply := fun _ => [0], applyR := fun _ _ => ([0], [0]), parameters := [] }

/-- A concrete leaf node. -/
def leafNode : Node := Node.mk leafNet []

/-- A concrete two-way branch network. -/
def branchNet : Network :=
  { apply := fun _ => [0, 0], applyR := fun _ _ => ([0, 0], [0, 0]), parameters := [] }

/-- A concrete branch node with two leaf children. -/
def branchNode : Node := Node.mk branchNet [leafNode, leafNode]

/-- A network whose output length (3) mismatches a one-child node. -/
def badNet : Network :=
  { apply := fun _ => [0, 0, 0], applyR := fun _ _ => ([0, 0, 0], [0, 0, 0]), parameters := [] }

/-- A concrete trivial RVector. -/
def rv0 : RVector := fun _ => []

/-! ## Helper lemmas -/

theorem getLast?_append_singleton {α : Type} (l : List α) (a : α) :
    (l ++ [a]).getLast? = some a := by
  induction l with
  | nil => rfl
  | cons x xs ih =>
    cases xs with
    | nil => rfl
    | cons y ys => simpa using ih

/-! ## Deserialization claims -/

/-- Claim C1 (evaluation of the defect): for every tree, deserializing the
bytes produced by Serialize does not succeed: it returns the error
"invalid Node slice", because the `ok` flag checked after the network type
assertion is never set.  This refutes the round-trip property. -/
theorem deserialize_serialize_always_error (n : Node) :
    DeserializeNode n.Serialize = GoResult.ret (Except.error ("invalid Node slice")) := by
  obtain ⟨net, cs⟩ := n
  simp only [Node.Serialize, SerializeSlice, DeserializeNode, DeserializeSlice]
  rw [getLast?_append_singleton]
  simp

/-- Claim C2 (evaluation of the defect): a well-formed encoded slice whose
single (hence last) element is a serialized Node rather than a Network makes
DeserializeNode panic in the type assertion
`list[len(list)-1].(neuralnet.Network)`, contradicting the requirement that the
decode path only ever returns an explicit error. -/
theorem deserializeNode_panics_on_non_network_last :
    DeserializeNode (Encoded.slice [SObj.node leafNode])
      = GoResult.panic ("interface conversion: element is not a neuralnet.Network") := by
  rfl

/-- Claim C10: DeserializeNode never returns a successfully decoded Node.  On
every input it either panics (when the last decoded element is not a network)
or returns an explicit error (in every other case: the `ok` flag is never set,
so even a well-formed encoding is rejected). -/
theorem deserializeNode_never_succeeds (d : Encoded) :
    (∃ s, DeserializeNode d = GoResult.panic s) ∨
      (∃ e, DeserializeNode d = GoResult.ret (Except.error e)) := by
  cases d with
  | malformed => right; exact ⟨_, rfl⟩
  | slice l =>
    simp only [DeserializeNode, DeserializeSlice]
    by_cases h : l.length = 0
    · right; rw [if_pos h]; exact ⟨_, rfl⟩
    · rw [if_neg h]
      cases hl : l.getLast? with
      | none => left; exact ⟨_, rfl⟩
      | some o =>
        cases o with
        | node m => left; exact ⟨_, rfl⟩
        | network net => right; exact ⟨_, rfl⟩
        | other => left; exact ⟨_, rfl⟩

/-! ## log-sum-exp helper lemmas -/

theorem log_exp_shift (a b m : ℝ) :
    Real.log (Real.exp (a + -m) + Real.exp (b + -m)) + m
      = Real.log (Real.exp a + Real.exp b) := by
  have hfac : Real.exp (a + -m) + Real.exp (b + -m)
      = (Real.exp a + Real.exp b) * Real.exp (-m) := by
    rw [Real.exp_add, Real.exp_add]; ring
  have hpos : (0 : ℝ) < Real.exp a + Real.exp b := by positivity
  rw [hfac, Real.log_mul hpos.ne' (Real.exp_ne_zero _), Real.log_exp]
  ring

theorem shifted_les (m : ℝ) (v1 v2 : List ℝ) :
    addScaler (logV (addV (expV (addScaler v1 (-m))) (expV (addScaler v2 (-m))))) m
      = List.zipWith (fun a b => Real.log (Real.exp a + Real.exp b)) v1 v2 := by
  induction v1 generalizing v2 with
  | nil => cases v2 <;> simp [addScaler, logV, addV, expV]
  | cons a l ih =>
    cases v2 with
    | nil => simp [addScaler, logV, addV, expV]
    | cons b l2 =>
      simp only [addScaler, logV, addV, expV, List.map_cons, List.zipWith_cons_cons,
        List.map_cons] at ih ⊢
      exact List.cons_eq_cons.mpr ⟨log_exp_shift a b m, ih l2⟩

theorem logExpSum_eq_zipWith (v1 v2 : List ℝ) :
    logExpSum v1 v2 = List.zipWith (fun a b => Real.log (Real.exp a + Real.exp b)) v1 v2 := by
  rw [logExpSum]
  exact shifted_les _ v1 v2

theorem logExpSum_length (v1 v2 : List ℝ) :
    (logExpSum v1 v2).length = min v1.length v2.length := by
  rw [logExpSum_eq_zipWith, List.length_zipWith]

theorem zipWith_swap_of_comm {α : Type} (f : α → α → α) (hf : ∀ a b, f a b = f b a) :
    ∀ l1 l2 : List α, List.zipWith f l1 l2 = List.zipWith f l2 l1 := by
  intro l1
  induction l1 with
  | nil => intro l2; cases l2 <;> simp
  | cons a l ih =>
    intro l2
    cases l2 with
    | nil => simp
    | cons b l2 => simp [hf a b, ih l2]

theorem getD_zipWith {α : Type} [Inhabited α] (f : α → α → α) (l1 l2 : List α) (i : Nat)
    (h1 : i < l1.length) (h2 : i < l2.length) :
    (List.zipWith f l1 l2).getD i default = f (l1.getD i default) (l2.getD i default) := by
  induction l1 generalizing l2 i with
  | nil => simp at h1
  | cons a l ih =>
    cases l2 with
    | nil => simp at h2
    | cons b l2 =>
      cases i with
      | zero => rfl
      | succ j =>
        simp only [List.zipWith_cons_cons, List.getD_cons_succ]
        exact ih l2 j (by simpa using h1) (by simpa using h2)

/-! ## Claims C4 and C9 -/

/-- Claim C4: for equal-length vectors, logExpSum computes, with the shared
shift m = max(maxAbs v1, maxAbs v2), the value log(exp(v1-m)+exp(v2-m))+m
elementwise, and in exact arithmetic this equals log(exp(v1)+exp(v2))
elementwise. -/
theorem logExpSum_spec (v1 v2 : List ℝ) (hlen : v1.length = v2.length)
    (i : Nat) (hi : i < v1.length) :
    ((logExpSum v1 v2).getD i 0
        = Real.log (Real.exp (v1.getD i 0 - max (maxAbs v1) (maxAbs v2))
            + Real.exp (v2.getD i 0 - max (maxAbs v1) (maxAbs v2)))
          + max (maxAbs v1) (maxAbs v2)) ∧
      (logExpSum v1 v2).getD i 0
        = Real.log (Real.exp (v1.getD i 0) + Real.exp (v2.getD i 0)) := by
  have h2 : i < v2.length := hlen ▸ hi
  have hmain : (logExpSum v1 v2).getD i 0
      = Real.log (Real.exp (v1.getD i 0) + Real.exp (v2.getD i 0)) := by
    rw [logExpSum_eq_zipWith]
    exact getD_zipWith _ v1 v2 i hi h2
  refine ⟨?_, hmain⟩
  rw [hmain, sub_eq_add_neg, sub_eq_add_neg, log_exp_shift]

/-- Claim C4, witnessed at v1 = [0], v2 = [1], i = 0. -/
theorem logExpSum_spec_witness :
    ((logExpSum [(0 : ℝ)] [1]).getD 0 0
        = Real.log (Real.exp (([(0 : ℝ)].getD 0 0) - max (maxAbs [(0 : ℝ)]) (maxAbs [(1 : ℝ)]))
            + Real.exp (([(1 : ℝ)].getD 0 0) - max (maxAbs [(0 : ℝ)]) (maxAbs [(1 : ℝ)])))
          + max (maxAbs [(0 : ℝ)]) (maxAbs [(1 : ℝ)])) ∧
      (logExpSum [(0 : ℝ)] [1]).getD 0 0
        = Real.log (Real.exp (([(0 : ℝ)].getD 0 0)) + Real.exp (([(1 : ℝ)].getD 0 0))) :=
  logExpSum_spec [0] [1] rfl 0 (by decide)

/-- Claim C9: logExpSum is symmetric in its two (equal-length) arguments. -/
theorem logExpSum_comm (v1 v2 : List ℝ) (hlen : v1.length = v2.length) :
    logExpSum v1 v2 = logExpSum v2 v1 := by
  rw [logExpSum_eq_zipWith, logExpSum_eq_zipWith]
  exact zipWith_swap_of_comm _ (fun a b => by rw [add_comm]) v1 v2

/-- Claim C9, witnessed at v1 = [0, 2], v2 = [1, 3]. -/
theorem logExpSum_comm_witness :
    logExpSum [(0 : ℝ), 2] [1, 3] = logExpSum [1, 3] [(0 : ℝ), 2] :=
  logExpSum_comm [0, 2] [1, 3] rfl

/-! ## List sum and indexing helpers -/

theorem getD_map_of_lt {α : Type} (f : α → ℝ) (l : List α) (d : α) (i : Nat)
    (h : i < l.length) : (l.map f).getD i 0 = f (l.getD i d) := by
  induction l generalizing i with
  | nil => simp at h
  | cons a l ih =>
    cases i with
    | zero => rfl
    | succ j =>
      simp only [List.map_cons, List.getD_cons_succ]
      exact ih j (by simpa using h)

theorem getD_zip_of_lt {α β : Type} (l1 : List α) (l2 : List β) (d1 : α) (d2 : β) (i : Nat)
    (h1 : i < l1.length) (h2 : i < l2.length) :
    (l1.zip l2).getD i (d1, d2) = (l1.getD i d1, l2.getD i d2) := by
  induction l1 generalizing l2 i with
  | nil => simp at h1
  | cons a l ih =>
    cases l2 with
    | nil => simp at h2
    | cons b l2 =>
      cases i with
      | zero => rfl
      | succ j =>
        simp only [List.zip_cons_cons, List.getD_cons_succ]
        exact ih l2 j (by simpa using h1) (by simpa using h2)

theorem getD_mem_of_lt {α : Type} (l : List α) (d : α) (i : Nat) (h : i < l.length) :
    l.getD i d ∈ l := by
  induction l generalizing i with
  | nil => simp at h
  | cons a l ih =>
    cases i with
    | zero => simp
    | succ j =>
      simp only [List.getD_cons_succ]
      exact List.mem_cons_of_mem a (ih j (by simpa using h))

theorem zipWith_eq_map_zip {α β γ : Type} (f : α → β → γ) :
    ∀ (l1 : List α) (l2 : List β),
      List.zipWith f l1 l2 = (l1.zip l2).map (fun p => f p.1 p.2) := by
  intro l1
  induction l1 with
  | nil => intro l2; cases l2 <;> simp
  | cons a l ih =>
    intro l2
    cases l2 with
    | nil => simp
    | cons b l2 => simp [ih l2]

theorem sum_map_eq_range {α : Type} (f : α → ℝ) (d : α) :
    ∀ l : List α, (l.map f).sum = ∑ i in Finset.range l.length, f (l.getD i d)
  | [] => by simp
  | a :: l => by
    rw [List.map_cons, List.sum_cons, sum_map_eq_range f d l, List.length_cons,
      Finset.sum_range_succ']
    simp only [List.getD_cons_succ, List.getD_cons_zero]
    ring

/-! ## The accumulated log-sum-exp in closed form -/

theorem foldl_logExpSum_spec (K : Nat) :
    ∀ (ws : List (List ℝ)) (w0 : List ℝ), w0.length = K → (∀ w ∈ ws, w.length = K) →
      (ws.foldl logExpSum w0).length = K ∧
        ∀ i, i < K → Real.exp ((ws.foldl logExpSum w0).getD i 0)
          = Real.exp (w0.getD i 0) + (ws.map (fun w => Real.exp (w.getD i 0))).sum
  | [], w0, h0, _ => ⟨h0, by simp⟩
  | w :: ws, w0, h0, hws => by
    have hw : w.length = K := hws w (List.mem_cons_self w ws)
    have h1 : (logExpSum w0 w).length = K := by
      rw [logExpSum_length, h0, hw, Nat.min_self]
    obtain ⟨ihlen, ihval⟩ := foldl_logExpSum_spec K ws (logExpSum w0 w) h1
      (fun w2 hw2 => hws w2 (List.mem_cons_of_mem w hw2))
    rw [List.foldl_cons]
    refine ⟨ihlen, fun i hi => ?_⟩
    rw [ihval i hi]
    have hles : (logExpSum w0 w).getD i 0
        = Real.log (Real.exp (w0.getD i 0) + Real.exp (w.getD i 0)) := by
      rw [logExpSum_eq_zipWith]
      exact getD_zipWith _ w0 w i (h0 ▸ hi) (hw ▸ hi)
    have hpos : (0 : ℝ) < Real.exp (w0.getD i 0) + Real.exp (w.getD i 0) := by positivity
    rw [hles, Real.exp_log hpos, List.map_cons, List.sum_cons]
    ring

theorem combineWeighted_spec (scores : List ℝ) (outs : List (List ℝ)) (K : Nat)
    (hlen : outs.length = scores.length) (hne : outs ≠ [])
    (ho : ∀ o ∈ outs, o.length = K) :
    (combineWeighted scores outs).length = K ∧
      ∀ i, i < K → Real.exp ((combineWeighted scores outs).getD i 0)
        = ((scores.zip outs).map (fun p => Real.exp (p.2.getD i 0 + p.1))).sum := by
  have hzip : List.zipWith (fun s childOut => addFirst childOut [s]) scores outs
      = (scores.zip outs).map (fun p => addFirst p.2 [p.1]) := zipWith_eq_map_zip _ scores outs
  have hwlen : ((scores.zip outs).map (fun p => addFirst p.2 [p.1])).length = outs.length := by
    rw [List.length_map, List.length_zip, hlen, Nat.min_self]
  have hwmem : ∀ w ∈ (scores.zip outs).map (fun p => addFirst p.2 [p.1]), w.length = K := by
    intro w hw
    obtain ⟨p, hp, rfl⟩ := List.mem_map.mp hw
    have : p.2 ∈ outs := (List.of_mem_zip hp).2
    simp only [addFirst, List.length_map]
    exact ho p.2 this
  have hwne : (scores.zip outs).map (fun p => addFirst p.2 [p.1]) ≠ [] := by
    intro hcon
    apply hne
    have := hwlen
    rw [hcon] at this
    exact List.length_eq_zero.mp this.symm
  obtain ⟨w, ws, hcons⟩ := List.exists_cons_of_ne_nil hwne
  have hfold : combineWeighted scores outs = ws.foldl logExpSum w := by
    rw [combineWeighted, hzip, hcons]
    rfl
  have hw0 : w.length = K := hwmem w (hcons ▸ List.mem_cons_self w ws)
  have hws : ∀ w2 ∈ ws, w2.length = K :=
    fun w2 h2 => hwmem w2 (hcons ▸ List.mem_cons_of_mem w h2)
  obtain ⟨hlen2, hval⟩ := foldl_logExpSum_spec K ws w hw0 hws
  rw [hfold]
  refine ⟨hlen2, fun i hi => ?_⟩
  rw [hval i hi]
  have : Real.exp (w.getD i 0) + (ws.map (fun w2 => Real.exp (w2.getD i 0))).sum
      = ((w :: ws).map (fun w2 => Real.exp (w2.getD i 0))).sum := by
    rw [List.map_cons, List.sum_cons]
  rw [this, ← hcons, List.map_map]
  congr 1
  apply List.map_congr_left
  intro p hp
  have hmem : p.2 ∈ outs := (List.of_mem_zip hp).2
  have hplen : p.2.length = K := ho p.2 hmem
  simp only [Function.comp_apply, addFirst, List.headD_cons]
  rw [getD_map_of_lt _ p.2 0 i (hplen ▸ hi)]

/-! ## Unfolding lemmas for Apply -/

theorem Apply_leaf (net : Network) (input : List ℝ) :
    Node.Apply (Node.mk net []) input = GoResult.ret (net.apply input) := by
  simp [Node.Apply]

theorem Apply_mismatch (net : Network) (cs : List Node) (input : List ℝ)
    (hne : cs ≠ []) (hmm : (net.apply input).length ≠ cs.length) :
    Node.Apply (Node.mk net cs) input
      = GoResult.panic ("child node count must match network output size") := by
  have h0 : ¬ cs.length = 0 := fun h => hne (List.length_eq_zero.mp h)
  simp [Node.Apply, h0, hmm]

theorem Apply_branch (net : Network) (cs : List Node) (input : List ℝ)
    (hne : cs ≠ []) (hok : (net.apply input).length = cs.length) :
    Node.Apply (Node.mk net cs) input
      = GoResult.map (combineWeighted (net.apply input)) (applyChildren cs input) := by
  have h0 : ¬ cs.length = 0 := fun h => hne (List.length_eq_zero.mp h)
  simp [Node.Apply, h0, hok]

theorem applyChildren_nil (input : List ℝ) : applyChildren [] input = GoResult.ret [] := by
  simp [applyChildren]

theorem applyChildren_cons (c : Node) (rest : List Node) (input : List ℝ) :
    applyChildren (c :: rest) input
      = GoResult.bind (Node.Apply c input) (fun o =>
          GoResult.map (fun os => o :: os) (applyChildren rest input)) := by
  simp [applyChildren]

theorem applyChildren_ret_length (input : List ℝ) :
    ∀ (cs : List Node) (outs : List (List ℝ)),
      applyChildren cs input = GoResult.ret outs → outs.length = cs.length := by
  intro cs
  induction cs with
  | nil => intro outs h; rw [applyChildren_nil] at h; cases h; rfl
  | cons c rest ih =>
    intro outs h
    rw [applyChildren_cons] at h
    cases hc : Node.Apply c input with
    | panic s => rw [hc] at h; cases h
    | ret o =>
      rw [hc] at h
      cases hr : applyChildren rest input with
      | panic s => rw [hr] at h; cases h
      | ret os =>
        rw [hr] at h
        cases h
        simp [ih os hr]

theorem applyChildren_of_forall (input : List ℝ) (P : List ℝ → Prop) :
    ∀ cs : List Node, (∀ c ∈ cs, ∃ v, Node.Apply c input = GoResult.ret v ∧ P v) →
      ∃ outs, applyChildren cs input = GoResult.ret outs ∧
        outs.length = cs.length ∧ ∀ o ∈ outs, P o := by
  intro cs
  induction cs with
  | nil => intro _; exact ⟨[], applyChildren_nil input, rfl, by simp⟩
  | cons c rest ih =>
    intro h
    obtain ⟨v, hv, hPv⟩ := h c (List.mem_cons_self c rest)
    obtain ⟨outs, houts, hlen, hP⟩ := ih (fun c2 h2 => h c2 (List.mem_cons_of_mem c h2))
    refine ⟨v :: outs, ?_, by simp [hlen], ?_⟩
    · rw [applyChildren_cons, hv, houts]
      rfl
    · intro o ho
      rcases List.mem_cons.mp ho with rfl | ho2
      · exact hPv
      · exact hP o ho2

/-- Claim C3: with no children, Apply returns the node's network output
unchanged; with k children and a length-k network output, Apply returns the
left-to-right logExpSum accumulation of the score-weighted child outputs, whose
entry at each class c equals log(sum_i exp(scores[i] + childOut_i[c])). -/
theorem apply_formula (net : Network) (cs : List Node) (input : List ℝ) :
    (cs = [] → Node.Apply (Node.mk net cs) input = GoResult.ret (net.apply input)) ∧
      ∀ (outs : List (List ℝ)) (K : Nat), cs ≠ [] →
        (net.apply input).length = cs.length →
        applyChildren cs input = GoResult.ret outs →
        (∀ o ∈ outs, o.length = K) →
        ∃ v, Node.Apply (Node.mk net cs) input = GoResult.ret v ∧ v.length = K ∧
          ∀ i, i < K → v.getD i 0
            = Real.log ((((net.apply input).zip outs).map
                (fun p => Real.exp (p.1 + p.2.getD i 0))).sum) := by
  constructor
  · rintro rfl
    exact Apply_leaf net input
  · intro outs K hne hok houts hK
    have hlo : outs.length = cs.length := applyChildren_ret_length input cs outs houts
    have hone : outs ≠ [] := by
      intro hcon
      apply hne
      rw [hcon] at hlo
      exact (List.length_eq_zero.mp hlo.symm)
    obtain ⟨hvl, hvv⟩ := combineWeighted_spec (net.apply input) outs K (by rw [hlo, hok]) hone hK
    refine ⟨combineWeighted (net.apply input) outs, ?_, hvl, ?_⟩
    · rw [Apply_branch net cs input hne hok, houts]
      rfl
    · intro i hi
      have hlog : (combineWeighted (net.apply input) outs).getD i 0
          = Real.log (Real.exp ((combineWeighted (net.apply input) outs).getD i 0)) :=
        (Real.log_exp _).symm
      rw [hlog, hvv i hi]
      have hfun : (fun p : ℝ × List ℝ => Real.exp (p.2.getD i 0 + p.1))
          = (fun p : ℝ × List ℝ => Real.exp (p.1 + p.2.getD i 0)) := by
        funext p
        rw [add_comm]
      rw [hfun]

/-- Claim C3, witnessed on a single leaf and on a two-leaf branch node. -/
theorem apply_formula_witness :
    (Node.Apply (Node.mk leafNet []) [] = GoResult.ret (leafNet.apply [])) ∧
      ∃ v, Node.Apply (Node.mk branchNet [leafNode, leafNode]) [] = GoResult.ret v ∧
        v.length = 1 ∧
        ∀ i, i < 1 → v.getD i 0
          = Real.log ((((branchNet.apply []).zip [[0], [0]]).map
              (fun p => Real.exp (p.1 + p.2.getD i 0))).sum) :=
  ⟨(apply_formula leafNet [] []).1 rfl,
   (apply_formula branchNet [leafNode, leafNode] []).2 [[0], [0]] 1 (by simp)
     (by norm_num [branchNet])
     (by simp [applyChildren_cons, applyChildren_nil, leafNode, Apply_leaf, leafNet,
       GoResult.bind, GoResult.map])
     (by
       intro o ho
       simp only [List.mem_cons, List.not_mem_nil, or_false] at ho
       rcases ho with rfl | rfl <;> rfl)⟩

/-- Claim C5: for every valid tree (every leaf network outputs a length-K
vector whose exponentials sum to 1, every branch network a vector of length
equal to its child count whose exponentials sum to 1) and every input, Apply
returns a vector of length K whose exponentials sum to 1. -/
theorem apply_preserves_distribution (K : Nat) (n : Node) (h : ValidTree K n)
    (input : List ℝ) :
    ∃ v, Node.Apply n input = GoResult.ret v ∧ v.length = K ∧
      (v.map Real.exp).sum = 1 := by
  induction h generalizing input with
  | leaf net hnet =>
    exact ⟨net.apply input, Apply_leaf net input, (hnet input).1, (hnet input).2⟩
  | branch net cs hne hnet hcs ih =>
    obtain ⟨outs, houts, hlo, hP⟩ := applyChildren_of_forall input
      (fun v => v.length = K ∧ (v.map Real.exp).sum = 1) cs
      (fun c hc => ih c hc input)
    have hs1 : (net.apply input).length = cs.length := (hnet input).1
    have hs2 : ((net.apply input).map Real.exp).sum = 1 := (hnet input).2
    have hone : outs ≠ [] := by
      intro hcon
      apply hne
      rw [hcon] at hlo
      exact List.length_eq_zero.mp hlo.symm
    obtain ⟨hvl, hvv⟩ := combineWeighted_spec (net.apply input) outs K
      (by rw [hlo, hs1]) hone (fun o ho => (hP o ho).1)
    refine ⟨combineWeighted (net.apply input) outs, ?_, hvl, ?_⟩
    · rw [Apply_branch net cs input hne hs1, houts]
      rfl
    · rw [sum_map_eq_range Real.exp 0, hvl]
      have hstep1 : ∀ i ∈ Finset.range K,
          Real.exp ((combineWeighted (net.apply input) outs).getD i 0)
            = ∑ j in Finset.range cs.length,
                Real.exp ((outs.getD j []).getD i 0 + (net.apply input).getD j 0) := by
        intro i hi
        rw [hvv i (Finset.mem_range.mp hi), sum_map_eq_range _ ((0 : ℝ), ([] : List ℝ))]
        have hzl : ((net.apply input).zip outs).length = cs.length := by
          rw [List.length_zip, hs1, hlo, Nat.min_self]
        rw [hzl]
        apply Finset.sum_congr rfl
        intro j hj
        have hj2 := Finset.mem_range.mp hj
        rw [getD_zip_of_lt (net.apply input) outs 0 [] j (hs1 ▸ hj2) (hlo ▸ hj2)]
      rw [Finset.sum_congr rfl hstep1, Finset.sum_comm]
      have hstep2 : ∀ j ∈ Finset.range cs.length,
          (∑ i in Finset.range K,
              Real.exp ((outs.getD j []).getD i 0 + (net.apply input).getD j 0))
            = Real.exp ((net.apply input).getD j 0) := by
        intro j hj
        have hj2 := Finset.mem_range.mp hj
        have hmem : outs.getD j [] ∈ outs := getD_mem_of_lt outs [] j (hlo ▸ hj2)
        obtain ⟨holen, hosum⟩ := hP _ hmem
        have hsplit : ∀ i ∈ Finset.range K,
            Real.exp ((outs.getD j []).getD i 0 + (net.apply input).getD j 0)
              = Real.exp ((outs.getD j []).getD i 0) * Real.exp ((net.apply input).getD j 0) :=
          fun i _ => Real.exp_add _ _
        rw [Finset.sum_congr rfl hsplit, ← Finset.sum_mul]
        have hinner : (∑ i in Finset.range K, Real.exp ((outs.getD j []).getD i 0)) = 1 := by
          rw [← holen, ← sum_map_eq_range Real.exp 0]
          exact hosum
        rw [hinner, one_mul]
      rw [Finset.sum_congr rfl hstep2, ← hs1, ← sum_map_eq_range Real.exp 0]
      exact hs2

/-- Claim C5, witnessed on a single valid leaf with class count 1. -/
theorem apply_preserves_distribution_witness :
    ∃ v, Node.Apply leafNode [] = GoResult.ret v ∧ v.length = 1 ∧
      (v.map Real.exp).sum = 1 :=
  apply_preserves_distribution 1 leafNode
    (ValidTree.leaf leafNet (fun input => ⟨rfl, by simp [leafNet, Real.exp_zero]⟩)) []

/-! ## Unfolding lemmas for ApplyR -/

theorem ApplyR_leaf (net : Network) (rv : RVector) (input : RVec) :
    Node.ApplyR (Node.mk net []) rv input = GoResult.ret (net.applyR rv input) := by
  simp [Node.ApplyR]

theorem ApplyR_mismatch (net : Network) (cs : List Node) (rv : RVector) (input : RVec)
    (hne : cs ≠ []) (hmm : (net.applyR rv input).1.length ≠ cs.length) :
    Node.ApplyR (Node.mk net cs) rv input
      = GoResult.panic ("child node count must match network output size") := by
  have h0 : ¬ cs.length = 0 := fun h => hne (List.length_eq_zero.mp h)
  simp [Node.ApplyR, h0, hmm]

theorem ApplyR_branch (net : Network) (cs : List Node) (rv : RVector) (input : RVec)
    (hne : cs ≠ []) (hok : (net.applyR rv input).1.length = cs.length) :
    Node.ApplyR (Node.mk net cs) rv input
      = GoResult.map (combineWeightedR (net.applyR rv input)) (applyChildrenR cs rv input) := by
  have h0 : ¬ cs.length = 0 := fun h => hne (List.length_eq_zero.mp h)
  simp [Node.ApplyR, h0, hok]

theorem applyChildrenR_nil (rv : RVector) (input : RVec) :
    applyChildrenR [] rv input = GoResult.ret [] := by
  simp [applyChildrenR]

theorem applyChildrenR_cons (c : Node) (rest : List Node) (rv : RVector) (input : RVec) :
    applyChildrenR (c :: rest) rv input
      = GoResult.bind (Node.ApplyR c rv input) (fun o =>
          GoResult.map (fun os => o :: os) (applyChildrenR rest rv input)) := by
  simp [applyChildrenR]

/-- Claim C6: a branch node whose network output length differs from its child
count makes Apply (and ApplyR) abort with the fatal panic; a leaf node never
triggers the check; and when every branch network's output length equals its
child count throughout the tree, Apply always returns a value (the panic branch
is unreachable). -/
theorem apply_panic_behavior (net : Network) (cs : List Node) (input : List ℝ)
    (rv : RVector) (rin : RVec) (n : Node) :
    (cs ≠ [] → (net.apply input).length ≠ cs.length →
      Node.Apply (Node.mk net cs) input
        = GoResult.panic ("child node count must match network output size")) ∧
    (cs ≠ [] → (net.applyR rv rin).1.length ≠ cs.length →
      Node.ApplyR (Node.mk net cs) rv rin
        = GoResult.panic ("child node count must match network output size")) ∧
    (Node.Apply (Node.mk net []) input = GoResult.ret (net.apply input)) ∧
    (Node.ApplyR (Node.mk net []) rv rin = GoResult.ret (net.applyR rv rin)) ∧
    (WellFormed n → ∃ v, Node.Apply n input = GoResult.ret v) := by
  refine ⟨Apply_mismatch net cs input, ApplyR_mismatch net cs rv rin,
    Apply_leaf net input, ApplyR_leaf net rv rin, ?_⟩
  intro h
  induction h generalizing input with
  | leaf net2 => exact ⟨net2.apply input, Apply_leaf net2 input⟩
  | branch net2 cs2 hne2 hok2 hcs2 ih =>
    obtain ⟨outs, houts, hlo, _⟩ := applyChildren_of_forall input (fun _ => True) cs2
      (fun c hc => by
        obtain ⟨v, hv⟩ := ih c hc input
        exact ⟨v, hv, trivial⟩)
    refine ⟨combineWeighted (net2.apply input) outs, ?_⟩
    rw [Apply_branch net2 cs2 input hne2 (hok2 input), houts]
    rfl

/-- Claim C6, witnessed: a one-child node with a length-3 network output panics
in Apply and ApplyR; a leaf returns its network output in both forms; a
well-formed leaf evaluates without panicking. -/
theorem apply_panic_behavior_witness :
    (Node.Apply (Node.mk badNet [leafNode]) []
        = GoResult.panic ("child node count must match network output size")) ∧
    (Node.ApplyR (Node.mk badNet [leafNode]) rv0 ([], [])
        = GoResult.panic ("child node count must match network output size")) ∧
    (Node.Apply (Node.mk leafNet []) [] = GoResult.ret (leafNet.apply [])) ∧
    (Node.ApplyR (Node.mk leafNet []) rv0 ([], []) = GoResult.ret (leafNet.applyR rv0 ([], []))) ∧
    (∃ v, Node.Apply leafNode [] = GoResult.ret v) := by
  have h1 := apply_panic_behavior badNet [leafNode] [] rv0 ([], []) leafNode
  have h2 := apply_panic_behavior leafNet [leafNode] [] rv0 ([], []) leafNode
  exact ⟨h1.1 (by simp) (by norm_num [badNet]),
    h1.2.1 (by simp) (by norm_num [badNet]),
    h2.2.2.1, h2.2.2.2.1,
    h1.2.2.2.2 (by rw [leafNode]; exact WellFormed.leaf leafNet)⟩

/-! ## Value components of the r-operator combinators -/

theorem logExpSumR_fst (a b : RVec) : (logExpSumR a b).1 = logExpSum a.1 b.1 := rfl

theorem foldl_logExpSumR_fst :
    ∀ (ws : List RVec) (w : RVec),
      (ws.foldl logExpSumR w).1 = (ws.map Prod.fst).foldl logExpSum w.1 := by
  intro ws
  induction ws with
  | nil => intro w; rfl
  | cons v ws ih =>
    intro w
    rw [List.foldl_cons, List.map_cons, List.foldl_cons, ih, logExpSumR_fst]

theorem foldLogExpSumR_fst (l : List RVec) :
    (foldLogExpSumR l).1 = foldLogExpSum (l.map Prod.fst) := by
  cases l with
  | nil => rfl
  | cons w ws =>
    rw [foldLogExpSumR, List.map_cons, foldLogExpSum]
    exact foldl_logExpSumR_fst ws w

theorem zip_addFirstR_fst :
    ∀ (s ds : List ℝ) (outs : List RVec), ds.length = s.length →
      (List.zipWith (fun sr childOut => addFirstR childOut ([sr.1], [sr.2]))
          (s.zip ds) outs).map Prod.fst
        = List.zipWith (fun x childOut => addFirst childOut [x]) s (outs.map Prod.fst) := by
  intro s
  induction s with
  | nil => intro ds outs _; simp
  | cons x s ih =>
    intro ds outs hlen
    cases ds with
    | nil => simp at hlen
    | cons dx ds =>
      cases outs with
      | nil => simp
      | cons o os =>
        simp only [List.zip_cons_cons, List.zipWith_cons_cons, List.map_cons]
        exact List.cons_eq_cons.mpr ⟨rfl, ih ds os (by simpa using hlen)⟩

theorem combineWeightedR_fst (dw : RVec) (outs : List RVec)
    (hl : dw.2.length = dw.1.length) :
    (combineWeightedR dw outs).1 = combineWeighted dw.1 (outs.map Prod.fst) := by
  rw [combineWeightedR, combineWeighted, foldLogExpSumR_fst]
  congr 1
  exact zip_addFirstR_fst dw.1 dw.2 outs hl

theorem applyChildrenR_fst (rv : RVector) (x rx : List ℝ) :
    ∀ cs : List Node,
      (∀ c ∈ cs, GoResult.map Prod.fst (Node.ApplyR c rv (x, rx)) = Node.Apply c x) →
      GoResult.map (List.map Prod.fst) (applyChildrenR cs rv (x, rx)) = applyChildren cs x := by
  intro cs
  induction cs with
  | nil => intro _; rw [applyChildrenR_nil, applyChildren_nil]; rfl
  | cons c rest ih =>
    intro h
    rw [applyChildrenR_cons, applyChildren_cons]
    have hc := h c (List.mem_cons_self c rest)
    have hrest := ih (fun c2 h2 => h c2 (List.mem_cons_of_mem c h2))
    cases hR : Node.ApplyR c rv (x, rx) with
    | panic s =>
      rw [hR] at hc
      simp only [GoResult.map] at hc
      rw [← hc]
      rfl
    | ret o =>
      rw [hR] at hc
      simp only [GoResult.map] at hc
      rw [← hc]
      simp only [GoResult.bind]
      cases hR2 : applyChildrenR rest rv (x, rx) with
      | panic s =>
        rw [hR2] at hrest
        simp only [GoResult.map] at hrest
        rw [← hrest]
        rfl
      | ret os =>
        rw [hR2] at hrest
        simp only [GoResult.map] at hrest
        rw [← hrest]
        rfl

/-- Claim C7: for every tree whose networks satisfy the autofunc contract
(ApplyR computes the same output vector as Apply, with an equal-length
r-derivative), the value component of ApplyR equals the output of Apply on the
same input — the two evaluation forms compute the same formula. -/
theorem applyR_matches_apply (n : Node) (h : TreeCoherent n) (rv : RVector)
    (x rx : List ℝ) :
    GoResult.map Prod.fst (Node.ApplyR n rv (x, rx)) = Node.Apply n x := by
  induction h generalizing rv x rx with
  | mk net cs hnet hcs ih =>
    obtain ⟨hv, hl⟩ := hnet rv (x, rx)
    by_cases hcse : cs.length = 0
    · have hnil : cs = [] := List.length_eq_zero.mp hcse
      subst hnil
      rw [ApplyR_leaf, Apply_leaf]
      simp only [GoResult.map]
      rw [hv]
    · have hne : cs ≠ [] := fun hcon => hcse (by rw [hcon]; rfl)
      by_cases hmm : (net.applyR rv (x, rx)).1.length = cs.length
      · have hmm2 : (net.apply x).length = cs.length := by rw [← hv]; exact hmm
        rw [ApplyR_branch net cs rv (x, rx) hne hmm, Apply_branch net cs x hne hmm2]
        have hkids := applyChildrenR_fst rv x rx cs (fun c hc => ih c hc rv x rx)
        cases hR : applyChildrenR cs rv (x, rx) with
        | panic s =>
          rw [hR] at hkids
          simp only [GoResult.map] at hkids
          rw [← hkids]
          rfl
        | ret outsR =>
          rw [hR] at hkids
          simp only [GoResult.map] at hkids
          rw [← hkids]
          simp only [GoResult.map, GoResult.ret.injEq]
          rw [combineWeightedR_fst _ _ hl, hv]
      · have hmm2 : (net.apply x).length ≠ cs.length := by rw [← hv]; exact hmm
        rw [ApplyR_mismatch net cs rv (x, rx) hne hmm, Apply_mismatch net cs x hne hmm2]
        rfl

/-- Claim C7, witnessed on a coherent leaf node. -/
theorem applyR_matches_apply_witness :
    GoResult.map Prod.fst (Node.ApplyR leafNode rv0 ([], [])) = Node.Apply leafNode [] :=
  applyR_matches_apply leafNode
    (by
      rw [leafNode]
      exact TreeCoherent.mk leafNet [] (fun rv input => ⟨rfl, rfl⟩) (by simp))
    rv0 [] []

/-! ## Parameter collection -/

theorem paramsList_eq_join : ∀ cs : List Node,
    paramsList cs = (cs.map Node.Parameters).join := by
  intro cs
  induction cs with
  | nil => rfl
  | cons c rest ih => simp [paramsList, ih]

theorem paramsList_length (cs : List Node)
    (h : ∀ c ∈ cs, (Node.Parameters c).length = Node.subtreeParamCount c) :
    (paramsList cs).length = subtreeCountList cs := by
  induction cs with
  | nil => rfl
  | cons c rest ih =>
    simp only [paramsList, subtreeCountList, List.length_append]
    rw [h c (List.mem_cons_self c rest), ih (fun c2 h2 => h c2 (List.mem_cons_of_mem c h2))]

/-- Claim C8: Parameters returns the node's own network parameters first,
followed by each child's Parameters recursively in child index order, and its
length is the sum of every node's own parameter count over the subtree. -/
theorem parameters_spec (n : Node) :
    Node.Parameters n = n.network.parameters ++ (n.children.map Node.Parameters).join ∧
      (Node.Parameters n).length = Node.subtreeParamCount n := by
  refine Node.inductionOn (P := fun n => Node.Parameters n
    = n.network.parameters ++ (n.children.map Node.Parameters).join ∧
      (Node.Parameters n).length = Node.subtreeParamCount n) n ?_
  intro net cs ih
  constructor
  · rw [Node.Parameters, Node.network, Node.children, paramsList_eq_join]
  · rw [Node.Parameters, Node.subtreeParamCount, List.length_append,
      paramsList_length cs (fun c hc => (ih c hc).2)]
